import Mathlib

/-!
Verification of the light-matrix reduction engine
(`light_mat/mateval/internal/mat_reduce_internal.h`), the SIMD pack
load/store contract and the element-wise arithmetic contract.

Floating-point values are embedded exactly: a value is a rational number
or one of the IEEE special values `+inf`, `-inf`, `NaN`.  Arithmetic on
the rational part is exact (no rounding); the special values follow the
IEEE rules (`0 * inf = NaN`, `inf - inf = NaN`, comparisons with `NaN`
are false, `1/0 = +inf`, ...), which is what the degenerate-shape claims
about the reduction drivers depend on.

Matrices are column-major, embedded as the list of their columns.
-/

namespace LightMat

/-- A floating-point value: an exact rational, `+∞`, `-∞` or `NaN`. -/
inductive FP where
  | num : ℚ → FP
  | posInf : FP
  | negInf : FP
  | nan : FP
deriving DecidableEq, Repr

/-- IEEE addition over `FP` (exact on the rational part). -/
def FP.add : FP → FP → FP
  | .num a, .num b => .num (a + b)
  | .num _, .posInf => .posInf
  | .num _, .negInf => .negInf
  | .num _, .nan => .nan
  | .posInf, .num _ => .posInf
  | .posInf, .posInf => .posInf
  | .posInf, .negInf => .nan
  | .posInf, .nan => .nan
  | .negInf, .num _ => .negInf
  | .negInf, .posInf => .nan
  | .negInf, .negInf => .negInf
  | .negInf, .nan => .nan
  | .nan, _ => .nan

/-- IEEE multiplication over `FP` (exact on the rational part);
`0 * ±∞ = NaN`. -/
def FP.mul : FP → FP → FP
  | .num a, .num b => .num (a * b)
  | .num a, .posInf => if 0 < a then .posInf else if a < 0 then .negInf else .nan
  | .num a, .negInf => if 0 < a then .negInf else if a < 0 then .posInf else .nan
  | .num _, .nan => .nan
  | .posInf, .num b => if 0 < b then .posInf else if b < 0 then .negInf else .nan
  | .posInf, .posInf => .posInf
  | .posInf, .negInf => .negInf
  | .posInf, .nan => .nan
  | .negInf, .num b => if 0 < b then .negInf else if b < 0 then .posInf else .nan
  | .negInf, .posInf => .negInf
  | .negInf, .negInf => .posInf
  | .negInf, .nan => .nan
  | .nan, _ => .nan

/-- IEEE reciprocal: `1/0 = +∞`, `1/±∞ = 0`; models `math::rcp`. -/
def FP.rcp : FP → FP
  | .num a => if a = 0 then .posInf else .num a⁻¹
  | .posInf => .num 0
  | .negInf => .num 0
  | .nan => .nan

/-- IEEE division over `FP`: `0/0 = NaN`, `x/0 = ±∞` for `x ≠ 0`,
`±∞/±∞ = NaN`. -/
def FP.div : FP → FP → FP
  | .num a, .num b =>
      if b = 0 then
        (if a = 0 then .nan else if 0 < a then .posInf else .negInf)
      else .num (a / b)
  | .num _, .posInf => .num 0
  | .num _, .negInf => .num 0
  | .num _, .nan => .nan
  | .posInf, .num b => if b < 0 then .negInf else .posInf
  | .posInf, .posInf => .nan
  | .posInf, .negInf => .nan
  | .posInf, .nan => .nan
  | .negInf, .num b => if b < 0 then .posInf else .negInf
  | .negInf, .posInf => .nan
  | .negInf, .negInf => .nan
  | .negInf, .nan => .nan
  | .nan, _ => .nan

/-- IEEE strict greater-than: any comparison involving `NaN` is false. -/
def FP.gt : FP → FP → Bool
  | .num a, .num b => decide (b < a)
  | .num _, .negInf => true
  | .num _, .posInf => false
  | .num _, .nan => false
  | .posInf, .num _ => true
  | .posInf, .negInf => true
  | .posInf, .posInf => false
  | .posInf, .nan => false
  | .negInf, _ => false
  | .nan, _ => false

/-- IEEE strict less-than: any comparison involving `NaN` is false. -/
def FP.lt (a b : FP) : Bool := FP.gt b a

/-- The reduction folder abstraction: an in-place combine rule together
with the value of the empty reduction (`RFun` in the source). -/
structure Folder where
  fold : FP → FP → FP
  empty : FP

/-- `sum_folder`: `a <- a + x`, empty value 0. -/
def sum_folder : Folder := ⟨FP.add, FP.num 0⟩

/-- `maximum_folder`: `a <- x > a ? x : a`, empty value `-∞`. -/
def maximum_folder : Folder := ⟨fun a x => if FP.gt x a then x else a, FP.negInf⟩

/-- `minimum_folder`: `a <- x < a ? x : a`, empty value `+∞`. -/
def minimum_folder : Folder := ⟨fun a x => if FP.lt x a then x else a, FP.posInf⟩

/-- `empty_values::sum` (mat_reduce_internal.h line 146). -/
def empty_values.sum : FP := FP.num 0

/-- `empty_values::mean` (line 149): `quiet_NaN`. -/
def empty_values.mean : FP := FP.nan

/-- `empty_values::maximum` (line 152): `-infinity`. -/
def empty_values.maximum : FP := FP.negInf

/-- `empty_values::minimum` (line 155): `+infinity`. -/
def empty_values.minimum : FP := FP.posInf

/-!
### Reduction kernels and drivers

A matrix is column-major: it is embedded as the list of its columns,
each column a list of `FP` of length `nrows`.
-/

/-- Modelled from the spec: `vecfold_kernel::apply` (from `mat_fold.h`,
not present in `src/`) runs the fold kernel over all rows of one column;
per the spec a zero-length column yields the folder's empty value, so the
accumulator starts at `f.empty` and folds the rows in order. -/
def vecfold_apply (f : Folder) (col : List FP) : FP :=
  col.foldl f.fold f.empty

/-- Modelled from the spec: `vecfoldf_kernel::apply` (from `mat_fold.h`,
not present in `src/`) is the transformed variant: each element is passed
through the transform function before being folded. -/
def vecfoldf_apply (f : Folder) (tfun : FP → FP) (col : List FP) : FP :=
  col.foldl (fun a x => f.fold a (tfun x)) f.empty

/-- `colwise_fold_impl` (mat_reduce_internal.h lines 166-179): for each
column index `j`, `dmat[j] = fker.apply(col_dim, rd.col(j))`. -/
def colwise_fold_impl (f : Folder) (cols : List (List FP)) : List FP :=
  cols.map (vecfold_apply f)

/-- `colwise_foldx_impl` (lines 181-194): the transformed variant. -/
def colwise_foldx_impl (f : Folder) (tfun : FP → FP) (cols : List (List FP)) :
    List FP :=
  cols.map (vecfoldf_apply f tfun)

/-- `colwise_sum_` (lines 197-202). -/
def colwise_sum_ (cols : List (List FP)) : List FP :=
  colwise_fold_impl sum_folder cols

/-- `colwise_mean_` (lines 204-212): the sum fold, then
`dmat *= math::rcp((T)m)` where `m = shape.nrows()`. -/
def colwise_mean_ (m : ℕ) (cols : List (List FP)) : List FP :=
  (colwise_fold_impl sum_folder cols).map
    (fun a => FP.mul a (FP.rcp (FP.num m)))

/-- `colwise_maximum_` (lines 214-219). -/
def colwise_maximum_ (cols : List (List FP)) : List FP :=
  colwise_fold_impl maximum_folder cols

/-- `colwise_minimum_` (lines 221-226). -/
def colwise_minimum_ (cols : List (List FP)) : List FP :=
  colwise_fold_impl minimum_folder cols

/-- `colwise_sumx_` (lines 229-235). -/
def colwise_sumx_ (tfun : FP → FP) (cols : List (List FP)) : List FP :=
  colwise_foldx_impl sum_folder tfun cols

/-- `colwise_maximumx_` (lines 248-254). -/
def colwise_maximumx_ (tfun : FP → FP) (cols : List (List FP)) : List FP :=
  colwise_foldx_impl maximum_folder tfun cols

/-- `colwise_minimumx_` (lines 256-262). -/
def colwise_minimumx_ (tfun : FP → FP) (cols : List (List FP)) : List FP :=
  colwise_foldx_impl minimum_folder tfun cols

/-- `rowwise_fold_impl` (lines 271-288): first copy column 0 into the
output vector (`linear_ewise_eval` with `copy_kernel` — the generic
linear evaluator from §6 of the spec is element-wise application), then
for each `j` from 1 to `n-1` combine column `j` element-wise into the
output with `_fold_kernel` (`a[i] <- fold(a[i], col_j[i])`).  The read of
`rd.col(0)` happens unconditionally, before any check of the column
count; a matrix with zero columns therefore accesses a non-existent
column, embedded here as `none`. -/
def rowwise_fold_impl (f : Folder) (cols : List (List FP)) :
    Option (List FP) :=
  match cols with
  | [] => none
  | c0 :: rest =>
      some (rest.foldl (fun a c => List.zipWith f.fold a c) c0)

/-- `rowwise_foldx_impl` (lines 290-306): the transformed variant — the
output is initialised with `map_kernel` applied to column 0 (i.e.
`tfun` mapped over column 0), then `_foldx_kernel`
(`a[i] <- fold(a[i], tfun(col_j[i]))`) combines each later column. -/
def rowwise_foldx_impl (f : Folder) (tfun : FP → FP)
    (cols : List (List FP)) : Option (List FP) :=
  match cols with
  | [] => none
  | c0 :: rest =>
      some (rest.foldl
        (fun a c => List.zipWith (fun x y => f.fold x (tfun y)) a c)
        (c0.map tfun))

/-- `rowwise_sum_` (lines 309-314). -/
def rowwise_sum_ (cols : List (List FP)) : Option (List FP) :=
  rowwise_fold_impl sum_folder cols

/-- `rowwise_mean_` (lines 316-325): the sum fold, then every output
slot is multiplied by the scalar `c = T(1)/T(n)` (an element-wise
multiply against a broadcast scalar). -/
def rowwise_mean_ (cols : List (List FP)) : Option (List FP) :=
  (rowwise_fold_impl sum_folder cols).map
    (fun a => a.map (fun x => FP.mul x (FP.div (FP.num 1) (FP.num cols.length))))

/-- `rowwise_maximum_` (lines 327-332). -/
def rowwise_maximum_ (cols : List (List FP)) : Option (List FP) :=
  rowwise_fold_impl maximum_folder cols

/-- `rowwise_minimum_` (lines 334-339). -/
def rowwise_minimum_ (cols : List (List FP)) : Option (List FP) :=
  rowwise_fold_impl minimum_folder cols

/-- `rowwise_sumx_` (lines 342-348). -/
def rowwise_sumx_ (tfun : FP → FP) (cols : List (List FP)) :
    Option (List FP) :=
  rowwise_foldx_impl sum_folder tfun cols

/-- `rowwise_meanx_` (lines 350-360): transformed sum fold, then the
same `1/n` post-scaling as `rowwise_mean_`. -/
def rowwise_meanx_ (tfun : FP → FP) (cols : List (List FP)) :
    Option (List FP) :=
  (rowwise_foldx_impl sum_folder tfun cols).map
    (fun a => a.map (fun x => FP.mul x (FP.div (FP.num 1) (FP.num cols.length))))

/-- `rowwise_maximumx_` (lines 362-368). -/
def rowwise_maximumx_ (tfun : FP → FP) (cols : List (List FP)) :
    Option (List FP) :=
  rowwise_foldx_impl maximum_folder tfun cols

/-- `rowwise_minimumx_` (lines 370-376). -/
def rowwise_minimumx_ (tfun : FP → FP) (cols : List (List FP)) :
    Option (List FP) :=
  rowwise_foldx_impl minimum_folder tfun cols

/-!
### SIMD pack load/store

`sse_packs.h` is not under `src/`; only its unit tests
(`tests/simd/test_sse_packs.cpp`) are.  The pack operations are modelled
from the spec (§4.1): a pack is a list of `width` lanes, a buffer is a
list of `FP`, and loads/stores act on the first `width` slots of the
buffer.  Alignment has no observable effect in the model, so the aligned
and unaligned variants share one definition each.
-/

/-- Modelled from the spec: `load_a(ptr)` reads exactly `width`
contiguous elements from an aligned buffer. -/
def pack_load_a (w : ℕ) (buf : List FP) : List FP := buf.take w

/-- Modelled from the spec: `load_u(ptr)` reads exactly `width`
contiguous elements from an arbitrarily aligned buffer; same observable
result as the aligned load. -/
def pack_load_u (w : ℕ) (buf : List FP) : List FP := buf.take w

/-- Modelled from the spec: `load_part(count, ptr)` loads the first
`count` lanes from the buffer; lanes beyond `count` are defined as
zero. -/
def pack_load_part (w k : ℕ) (buf : List FP) : List FP :=
  buf.take k ++ List.replicate (w - k) (FP.num 0)

/-- Modelled from the spec: `store_a(ptr)` writes the whole pack over
the first `width` slots of the aligned destination buffer, leaving the
rest of the buffer untouched. -/
def pack_store_a (pk dst : List FP) : List FP :=
  pk ++ dst.drop pk.length

/-- Modelled from the spec: `store_u(ptr)`, the arbitrarily aligned
store; same observable result as the aligned store. -/
def pack_store_u (pk dst : List FP) : List FP :=
  pk ++ dst.drop pk.length

/-- Modelled from the spec: `store_part(count, ptr)` writes only the
first `count` lanes of the pack; destination slots from `count` on are
left untouched in memory. -/
def pack_store_part (k : ℕ) (pk dst : List FP) : List FP :=
  pk.take k ++ dst.drop k

/-!
### Element-wise matrix arithmetic

`matrix_arith.h` is not under `src/`; only its unit tests
(`tests/test_mat_arith.cpp`) are.  Dense matrices of a fixed shape are
linearly indexed (`A[i]`, column-major) in those tests, so a matrix of
shape `m × n` is embedded as the flat list of its `m * n` elements.
-/

/-- Modelled from the spec: the freshly evaluated element-wise sum
`A + B` of two equal-shape matrices. -/
def mat_add (A B : List FP) : List FP := List.zipWith FP.add A B

/-- Modelled from the spec: the freshly evaluated matrix-plus-scalar
`A + c` (the scalar broadcast over every slot). -/
def mat_add_scalar (A : List FP) (c : FP) : List FP :=
  A.map (fun x => FP.add x c)

/-- Modelled from the spec: the in-place update `A += B`: a single pass
over the linear index range that overwrites slot `i` of the accumulator
with `A[i] + B[i]`. -/
def mat_add_ip (A B : List FP) : List FP :=
  (List.range A.length).foldl
    (fun acc i => acc.set i (FP.add (acc.getD i (FP.num 0)) (B.getD i (FP.num 0)))) A

/-- Modelled from the spec: the in-place update `A += c` for a scalar
`c`, one pass over the linear index range. -/
def mat_add_scalar_ip (A : List FP) (c : FP) : List FP :=
  (List.range A.length).foldl
    (fun acc i => acc.set i (FP.add (acc.getD i (FP.num 0)) c)) A

/-!
### Helper lemmas
-/

/-- Multiplying by `rcp(m)` (what `colwise_mean_` does) is IEEE division
by `m`, for a non-negative count `m`. -/
lemma FP.mul_rcp_nat (a : FP) (m : ℕ) :
    FP.mul a (FP.rcp (FP.num (m : ℚ))) = FP.div a (FP.num (m : ℚ)) := by
  rcases Nat.eq_zero_or_pos m with hm | hm
  · subst hm
    cases a with
    | num q =>
        rcases lt_trichotomy q 0 with h | h | h
        · simp [FP.mul, FP.rcp, FP.div, h, h.ne, not_lt_of_gt h]
        · simp [FP.mul, FP.rcp, FP.div, h]
        · simp [FP.mul, FP.rcp, FP.div, h, h.ne', not_lt_of_gt h]
    | posInf => simp [FP.mul, FP.rcp, FP.div]
    | negInf => simp [FP.mul, FP.rcp, FP.div]
    | nan => simp [FP.mul, FP.rcp, FP.div]
  · have h0 : (0 : ℚ) < (m : ℚ) := by exact_mod_cast hm
    have hne : (m : ℚ) ≠ 0 := h0.ne'
    cases a with
    | num q =>
        simp [FP.mul, FP.rcp, FP.div, hne, div_eq_mul_inv]
    | posInf =>
        simp [FP.mul, FP.rcp, FP.div, hne, inv_pos.mpr h0, not_lt_of_gt h0]
    | negInf =>
        simp [FP.mul, FP.rcp, FP.div, hne, inv_pos.mpr h0, not_lt_of_gt h0]
    | nan => simp [FP.mul, FP.rcp, FP.div, hne]

/-!
### C1: colwise sum / maximum / minimum
-/

/-- C1.  For every matrix with `m` rows and `n` columns (`m` arbitrary,
including `0` and non-multiples of the SIMD width, which the embedding's
per-column sequential fold covers since the vectorised kernel is modelled
by its specified sequential result), the colwise sum, maximum and minimum
drivers produce an output of length `n` whose slot `j` is the naive
sequential fold of column `j` under `a <- a + x`,
`a <- x > a ? x : a`, `a <- x < a ? x : a` respectively; when `m = 0`
every output slot is the folder's empty value (`0`, `-∞`, `+∞`). -/
theorem colwise_reduction_correct (m : ℕ) (cols : List (List FP))
    (hm : ∀ c ∈ cols, c.length = m) :
    (colwise_sum_ cols).length = cols.length ∧
    (colwise_maximum_ cols).length = cols.length ∧
    (colwise_minimum_ cols).length = cols.length ∧
    (∀ j : ℕ, (colwise_sum_ cols)[j]? =
      (cols[j]?).map (fun c => c.foldl (fun a x => FP.add a x) (FP.num 0))) ∧
    (∀ j : ℕ, (colwise_maximum_ cols)[j]? =
      (cols[j]?).map (fun c =>
        c.foldl (fun a x => if FP.gt x a then x else a) FP.negInf)) ∧
    (∀ j : ℕ, (colwise_minimum_ cols)[j]? =
      (cols[j]?).map (fun c =>
        c.foldl (fun a x => if FP.lt x a then x else a) FP.posInf)) ∧
    (m = 0 →
      (∀ x ∈ colwise_sum_ cols, x = empty_values.sum) ∧
      (∀ x ∈ colwise_maximum_ cols, x = empty_values.maximum) ∧
      (∀ x ∈ colwise_minimum_ cols, x = empty_values.minimum)) := by
  have hcols : ∀ (c : List FP), c ∈ cols → m = 0 → c = [] := by
    intro c hc h0
    have := hm c hc
    rw [h0] at this
    exact List.length_eq_zero.mp this
  refine ⟨?_, ?_, ?_, ?_, ?_, ?_, ?_⟩
  · simp [colwise_sum_, colwise_fold_impl]
  · simp [colwise_maximum_, colwise_fold_impl]
  · simp [colwise_minimum_, colwise_fold_impl]
  · intro j
    simp only [colwise_sum_, colwise_fold_impl, List.getElem?_map]
    rfl
  · intro j
    simp only [colwise_maximum_, colwise_fold_impl, List.getElem?_map]
    rfl
  · intro j
    simp only [colwise_minimum_, colwise_fold_impl, List.getElem?_map]
    rfl
  · intro h0
    refine ⟨?_, ?_, ?_⟩ <;>
      · intro x hx
        simp [colwise_sum_, colwise_maximum_, colwise_minimum_,
          colwise_fold_impl] at hx
        obtain ⟨c, hc, rfl⟩ := hx
        rw [hcols c hc h0]
        rfl

/-- Witness for C1 at a concrete input: two columns, zero rows. -/
theorem colwise_reduction_correct_witness :
    (∀ c ∈ ([[], []] : List (List FP)), c.length = 0) ∧
    ((colwise_sum_ [[], []]).length = ([[], []] : List (List FP)).length ∧
     (colwise_maximum_ [[], []]).length = ([[], []] : List (List FP)).length ∧
     (colwise_minimum_ [[], []]).length = ([[], []] : List (List FP)).length ∧
     (∀ j : ℕ, (colwise_sum_ [[], []])[j]? =
       (([[], []] : List (List FP))[j]?).map
         (fun c => c.foldl (fun a x => FP.add a x) (FP.num 0))) ∧
     (∀ j : ℕ, (colwise_maximum_ [[], []])[j]? =
       (([[], []] : List (List FP))[j]?).map (fun c =>
         c.foldl (fun a x => if FP.gt x a then x else a) FP.negInf)) ∧
     (∀ j : ℕ, (colwise_minimum_ [[], []])[j]? =
       (([[], []] : List (List FP))[j]?).map (fun c =>
         c.foldl (fun a x => if FP.lt x a then x else a) FP.posInf)) ∧
     (0 = 0 →
       (∀ x ∈ colwise_sum_ [[], []], x = empty_values.sum) ∧
       (∀ x ∈ colwise_maximum_ [[], []], x = empty_values.maximum) ∧
       (∀ x ∈ colwise_minimum_ [[], []], x = empty_values.minimum))) :=
  ⟨by simp, colwise_reduction_correct 0 [[], []] (by simp)⟩

/-!
### C2: colwise mean
-/

/-- C2.  Colwise mean equals the colwise sum with every output slot
divided by the row count `m` (the driver multiplies by `rcp(m)`, which
in the embedding coincides with IEEE division by `m`), and when `m = 0`
every output slot is `NaN` (the empty sum `0` times `rcp(0) = +∞`). -/
theorem colwise_mean_correct (m : ℕ) (cols : List (List FP))
    (hm : ∀ c ∈ cols, c.length = m) :
    colwise_mean_ m cols =
      (colwise_sum_ cols).map (fun a => FP.div a (FP.num m)) ∧
    (colwise_mean_ m cols).length = cols.length ∧
    (m = 0 → ∀ x ∈ colwise_mean_ m cols, x = FP.nan) := by
  refine ⟨?_, ?_, ?_⟩
  · simp [colwise_mean_, colwise_sum_, FP.mul_rcp_nat]
  · simp [colwise_mean_, colwise_fold_impl]
  · intro h0 x hx
    simp [colwise_mean_, colwise_fold_impl] at hx
    obtain ⟨c, hc, rfl⟩ := hx
    have hc0 : c = [] := by
      have := hm c hc
      rw [h0] at this
      exact List.length_eq_zero.mp this
    subst hc0
    subst h0
    simp [vecfold_apply, sum_folder, FP.rcp, FP.mul]

/-- Witness for C2 at a concrete input: one zero-row column (`m = 0`),
where the mean slot is `NaN`. -/
theorem colwise_mean_correct_witness :
    (∀ c ∈ ([[]] : List (List FP)), c.length = 0) ∧
    (colwise_mean_ 0 [[]] =
       (colwise_sum_ [[]]).map (fun a => FP.div a (FP.num (0 : ℕ))) ∧
     (colwise_mean_ 0 [[]]).length = ([[]] : List (List FP)).length ∧
     (0 = 0 → ∀ x ∈ colwise_mean_ 0 [[]], x = FP.nan)) :=
  ⟨by simp, colwise_mean_correct 0 [[]] (by simp)⟩

/-!
### Rowwise accumulation lemmas

The rowwise driver keeps a running output vector and combines each later
column into it element-wise; these lemmas relate that column-major
accumulation to the per-row sequential fold.
-/

/-- The running output vector keeps length `m` across the column loop. -/
lemma foldl_zipWith_length (f : FP → FP → FP) (m : ℕ) :
    ∀ (rest : List (List FP)) (init : List FP), init.length = m →
      (∀ c ∈ rest, c.length = m) →
      (rest.foldl (fun a c => List.zipWith f a c) init).length = m := by
  intro rest
  induction rest with
  | nil => intro init h _; simpa using h
  | cons c rest ih =>
      intro init hinit hall
      simp only [List.foldl_cons]
      refine ih _ ?_ (fun c' hc' => hall c' (List.mem_cons_of_mem _ hc'))
      rw [List.length_zipWith, hinit, hall c (List.mem_cons_self c rest)]
      exact min_self m

/-- Slot `i` of the column-major accumulation is the sequential fold of
row `i` across the columns, started from the initial vector's slot `i`. -/
lemma foldl_zipWith_getD (f : FP → FP → FP) (m : ℕ) (d : FP) :
    ∀ (rest : List (List FP)) (init : List FP), init.length = m →
      (∀ c ∈ rest, c.length = m) → ∀ i, i < m →
      (rest.foldl (fun a c => List.zipWith f a c) init).getD i d =
        rest.foldl (fun a c => f a (c.getD i d)) (init.getD i d) := by
  intro rest
  induction rest with
  | nil => intros; rfl
  | cons c rest ih =>
      intro init hinit hall i hi
      have hc : c.length = m := hall c (List.mem_cons_self c rest)
      have hzl : (List.zipWith f init c).length = m := by
        rw [List.length_zipWith, hinit, hc]; exact min_self m
      simp only [List.foldl_cons]
      rw [ih (List.zipWith f init c) hzl
        (fun c' hc' => hall c' (List.mem_cons_of_mem _ hc')) i hi]
      have h1 : i < (List.zipWith f init c).length := hzl ▸ hi
      have h2 : i < init.length := hinit ▸ hi
      have h3 : i < c.length := hc ▸ hi
      rw [List.getD_eq_getElem _ _ h1, List.getD_eq_getElem _ _ h2,
        List.getD_eq_getElem _ _ h3, List.getElem_zipWith]

/-!
### C3: rowwise sum / maximum / minimum
-/

/-- C3.  For a matrix with `m` rows and at least one column, the rowwise
sum, maximum and minimum drivers produce an output vector of length `m`
whose slot `i` is the naive sequential fold of row `i`: the driver copies
column 0 into the output and then combines each column `j ≥ 1`
element-wise with the fold kernel, so slot `i` folds row `i` left to
right starting from column 0's entry; for `n = 1` the rowwise sum is the
input column itself. -/
theorem rowwise_reduction_correct (m : ℕ) (c0 : List FP)
    (rest : List (List FP)) (h0 : c0.length = m)
    (hr : ∀ c ∈ rest, c.length = m) :
    (∃ out, rowwise_sum_ (c0 :: rest) = some out ∧ out.length = m ∧
      ∀ i, i < m → out.getD i FP.nan =
        rest.foldl (fun a c => FP.add a (c.getD i FP.nan))
          (c0.getD i FP.nan)) ∧
    (∃ out, rowwise_maximum_ (c0 :: rest) = some out ∧ out.length = m ∧
      ∀ i, i < m → out.getD i FP.nan =
        rest.foldl
          (fun a c => if FP.gt (c.getD i FP.nan) a then c.getD i FP.nan else a)
          (c0.getD i FP.nan)) ∧
    (∃ out, rowwise_minimum_ (c0 :: rest) = some out ∧ out.length = m ∧
      ∀ i, i < m → out.getD i FP.nan =
        rest.foldl
          (fun a c => if FP.lt (c.getD i FP.nan) a then c.getD i FP.nan else a)
          (c0.getD i FP.nan)) ∧
    (rest = [] → rowwise_sum_ (c0 :: rest) = some c0) := by
  refine ⟨⟨_, rfl, ?_, ?_⟩, ⟨_, rfl, ?_, ?_⟩, ⟨_, rfl, ?_, ?_⟩, ?_⟩
  · exact foldl_zipWith_length FP.add m rest c0 h0 hr
  · exact foldl_zipWith_getD FP.add m FP.nan rest c0 h0 hr
  · exact foldl_zipWith_length (fun a x => if FP.gt x a then x else a)
      m rest c0 h0 hr
  · exact foldl_zipWith_getD (fun a x => if FP.gt x a then x else a)
      m FP.nan rest c0 h0 hr
  · exact foldl_zipWith_length (fun a x => if FP.lt x a then x else a)
      m rest c0 h0 hr
  · exact foldl_zipWith_getD (fun a x => if FP.lt x a then x else a)
      m FP.nan rest c0 h0 hr
  · intro h
    subst h
    rfl

/-- Witness for C3 at a concrete input: a 2-row matrix with two
columns. -/
theorem rowwise_reduction_correct_witness :
    (([FP.num 1, FP.num 2] : List FP).length = 2) ∧
    (∀ c ∈ ([[FP.num 3, FP.num 4]] : List (List FP)), c.length = 2) ∧
    ((∃ out, rowwise_sum_ ([FP.num 1, FP.num 2] :: [[FP.num 3, FP.num 4]]) =
        some out ∧ out.length = 2 ∧
      ∀ i, i < 2 → out.getD i FP.nan =
        ([[FP.num 3, FP.num 4]] : List (List FP)).foldl
          (fun a c => FP.add a (c.getD i FP.nan))
          (([FP.num 1, FP.num 2] : List FP).getD i FP.nan)) ∧
    (∃ out, rowwise_maximum_ ([FP.num 1, FP.num 2] :: [[FP.num 3, FP.num 4]]) =
        some out ∧ out.length = 2 ∧
      ∀ i, i < 2 → out.getD i FP.nan =
        ([[FP.num 3, FP.num 4]] : List (List FP)).foldl
          (fun a c => if FP.gt (c.getD i FP.nan) a then c.getD i FP.nan else a)
          (([FP.num 1, FP.num 2] : List FP).getD i FP.nan)) ∧
    (∃ out, rowwise_minimum_ ([FP.num 1, FP.num 2] :: [[FP.num 3, FP.num 4]]) =
        some out ∧ out.length = 2 ∧
      ∀ i, i < 2 → out.getD i FP.nan =
        ([[FP.num 3, FP.num 4]] : List (List FP)).foldl
          (fun a c => if FP.lt (c.getD i FP.nan) a then c.getD i FP.nan else a)
          (([FP.num 1, FP.num 2] : List FP).getD i FP.nan)) ∧
    (([[FP.num 3, FP.num 4]] : List (List FP)) = [] →
      rowwise_sum_ ([FP.num 1, FP.num 2] :: [[FP.num 3, FP.num 4]]) =
        some [FP.num 1, FP.num 2])) :=
  ⟨by simp, by simp,
    rowwise_reduction_correct 2 [FP.num 1, FP.num 2] [[FP.num 3, FP.num 4]]
      (by simp) (by simp)⟩

/-!
### C4: rowwise mean
-/

/-- C4.  The rowwise mean is the rowwise sum accumulation followed by
multiplying every slot of the output vector by the broadcast scalar
`1 / n` (the driver computes `c = T(1)/T(n)` and maps a multiply by `c`
over the vector); for `n ≥ 1` that scalar is the exact rational `1/n`. -/
theorem rowwise_mean_correct (c0 : List FP) (rest : List (List FP)) :
    rowwise_mean_ (c0 :: rest) =
      (rowwise_sum_ (c0 :: rest)).map
        (fun v => v.map (fun x =>
          FP.mul x (FP.div (FP.num 1) (FP.num ((rest.length + 1 : ℕ) : ℚ))))) ∧
    FP.div (FP.num 1) (FP.num ((rest.length + 1 : ℕ) : ℚ)) =
      FP.num (((rest.length + 1 : ℕ) : ℚ)⁻¹) := by
  have hne : ((rest.length + 1 : ℕ) : ℚ) ≠ 0 := by
    exact_mod_cast (Nat.succ_ne_zero rest.length)
  constructor
  · simp [rowwise_mean_, rowwise_sum_]
  · have hne' : ((rest.length : ℚ) + 1) ≠ 0 := by push_cast at hne; exact hne
    simp [FP.div, hne, hne', one_div]

/-!
### C5: rowwise reduction requires at least one column
-/

/-- C5.  Every rowwise driver (plain and transformed, all four kinds)
reads column 0 unconditionally, before any check of the column count, so
`n ≥ 1` is a precondition: on a zero-column operand the drivers access a
non-existent column (embedded as `none`) instead of returning the
folder's empty value per row. -/
theorem rowwise_zero_columns_precondition (m : ℕ) (tfun : FP → FP) :
    rowwise_sum_ [] = none ∧
    rowwise_mean_ [] = none ∧
    rowwise_maximum_ [] = none ∧
    rowwise_minimum_ [] = none ∧
    rowwise_sumx_ tfun [] = none ∧
    rowwise_meanx_ tfun [] = none ∧
    rowwise_maximumx_ tfun [] = none ∧
    rowwise_minimumx_ tfun [] = none ∧
    rowwise_sum_ [] ≠ some (List.replicate m empty_values.sum) ∧
    rowwise_maximum_ [] ≠ some (List.replicate m empty_values.maximum) ∧
    rowwise_minimum_ [] ≠ some (List.replicate m empty_values.minimum) := by
  refine ⟨rfl, rfl, rfl, rfl, rfl, rfl, rfl, rfl, ?_, ?_, ?_⟩ <;>
    simp [rowwise_sum_, rowwise_maximum_, rowwise_minimum_,
      rowwise_fold_impl]

/-!
### C6: transformed folds with the identity transform
-/

/-- C6.  For every folder (hence every reduction kind) and every operand,
the transformed colwise and rowwise folds with the identity transform
produce exactly the same output vector as the corresponding
non-transformed fold; the same holds for each named transformed driver
against its plain counterpart. -/
theorem foldx_identity_equiv (f : Folder) (cols : List (List FP)) :
    colwise_foldx_impl f (fun x => x) cols = colwise_fold_impl f cols ∧
    rowwise_foldx_impl f (fun x => x) cols = rowwise_fold_impl f cols ∧
    colwise_sumx_ (fun x => x) cols = colwise_sum_ cols ∧
    colwise_maximumx_ (fun x => x) cols = colwise_maximum_ cols ∧
    colwise_minimumx_ (fun x => x) cols = colwise_minimum_ cols ∧
    rowwise_sumx_ (fun x => x) cols = rowwise_sum_ cols ∧
    rowwise_meanx_ (fun x => x) cols = rowwise_mean_ cols ∧
    rowwise_maximumx_ (fun x => x) cols = rowwise_maximum_ cols ∧
    rowwise_minimumx_ (fun x => x) cols = rowwise_minimum_ cols := by
  have hrow : ∀ g : Folder,
      rowwise_foldx_impl g (fun x => x) cols = rowwise_fold_impl g cols := by
    intro g
    cases cols with
    | nil => rfl
    | cons c0 rest => simp [rowwise_foldx_impl, rowwise_fold_impl]
  refine ⟨rfl, hrow f, rfl, rfl, rfl, hrow sum_folder, ?_,
    hrow maximum_folder, hrow minimum_folder⟩
  rw [rowwise_meanx_, rowwise_mean_, hrow sum_folder]

/-!
### C7: partial load zero-fill
-/

/-- C7.  `load_part(k, ptr)` with `0 < k ≤ width` yields a pack of
`width` lanes whose lanes `[0,k)` equal the first `k` source elements
and whose lanes `[k,width)` equal zero; with `k = width` it behaves
identically to the full-width load. -/
theorem pack_load_part_correct (w k : ℕ) (buf : List FP)
    (hk0 : 0 < k) (hkw : k ≤ w) (hbuf : w ≤ buf.length) :
    (pack_load_part w k buf).length = w ∧
    (∀ i, i < k → (pack_load_part w k buf)[i]? = buf[i]?) ∧
    (∀ i, k ≤ i → i < w → (pack_load_part w k buf)[i]? = some (FP.num 0)) ∧
    (k = w → pack_load_part w k buf = pack_load_a w buf ∧
             pack_load_part w k buf = pack_load_u w buf) := by
  have htk : (List.take k buf).length = k := by
    simp only [List.length_take]
    omega
  refine ⟨?_, ?_, ?_, ?_⟩
  · simp only [pack_load_part, List.length_append, List.length_replicate, htk]
    omega
  · intro i hi
    rw [pack_load_part, List.getElem?_append, if_pos (by rw [htk]; exact hi),
      List.getElem?_take, if_pos hi]
  · intro i hik hiw
    rw [pack_load_part, List.getElem?_append_right (by rw [htk]; exact hik), htk,
      List.getElem?_replicate, if_pos (by omega)]
  · intro hk
    subst hk
    constructor <;>
      simp [pack_load_part, pack_load_a, pack_load_u]

/-- Witness for C7 at a concrete input: width 4, two lanes loaded from a
five-element buffer. -/
theorem pack_load_part_correct_witness :
    (0 < 2 ∧ 2 ≤ 4 ∧
      4 ≤ ([FP.num 1, FP.num 2, FP.num 3, FP.num 4, FP.num 5] :
        List FP).length) ∧
    ((pack_load_part 4 2 [FP.num 1, FP.num 2, FP.num 3, FP.num 4, FP.num 5]).length = 4 ∧
     (∀ i, i < 2 →
       (pack_load_part 4 2 [FP.num 1, FP.num 2, FP.num 3, FP.num 4, FP.num 5])[i]? =
         ([FP.num 1, FP.num 2, FP.num 3, FP.num 4, FP.num 5] : List FP)[i]?) ∧
     (∀ i, 2 ≤ i → i < 4 →
       (pack_load_part 4 2 [FP.num 1, FP.num 2, FP.num 3, FP.num 4, FP.num 5])[i]? =
         some (FP.num 0)) ∧
     (2 = 4 →
       pack_load_part 4 2 [FP.num 1, FP.num 2, FP.num 3, FP.num 4, FP.num 5] =
         pack_load_a 4 [FP.num 1, FP.num 2, FP.num 3, FP.num 4, FP.num 5] ∧
       pack_load_part 4 2 [FP.num 1, FP.num 2, FP.num 3, FP.num 4, FP.num 5] =
         pack_load_u 4 [FP.num 1, FP.num 2, FP.num 3, FP.num 4, FP.num 5])) :=
  ⟨⟨by decide, by decide, by simp⟩,
    pack_load_part_correct 4 2 [FP.num 1, FP.num 2, FP.num 3, FP.num 4, FP.num 5]
      (by decide) (by decide) (by simp)⟩

/-!
### C8: partial store preservation
-/

/-- C8.  `store_part(k, ptr)` with `0 < k ≤ width` writes exactly the
first `k` lanes of the pack into destination slots `[0,k)` and leaves
the destination memory at slots `[k,width)` unchanged. -/
theorem pack_store_part_correct (w k : ℕ) (pk dst : List FP)
    (hk0 : 0 < k) (hkw : k ≤ w) (hpk : pk.length = w)
    (hdst : dst.length = w) :
    (pack_store_part k pk dst).length = w ∧
    (∀ i, i < k → (pack_store_part k pk dst)[i]? = pk[i]?) ∧
    (∀ i, k ≤ i → (pack_store_part k pk dst)[i]? = dst[i]?) := by
  have htk : (List.take k pk).length = k := by
    simp only [List.length_take]
    omega
  refine ⟨?_, ?_, ?_⟩
  · simp only [pack_store_part, List.length_append, List.length_drop, htk, hdst]
    omega
  · intro i hi
    rw [pack_store_part, List.getElem?_append, if_pos (by rw [htk]; exact hi),
      List.getElem?_take, if_pos hi]
  · intro i hik
    rw [pack_store_part, List.getElem?_append_right (by rw [htk]; exact hik), htk,
      List.getElem?_drop]
    congr 1
    omega

/-- Witness for C8 at a concrete input: width 2, one lane stored. -/
theorem pack_store_part_correct_witness :
    (0 < 1 ∧ 1 ≤ 2 ∧ ([FP.num 5, FP.num 6] : List FP).length = 2 ∧
      ([FP.num 9, FP.num 8] : List FP).length = 2) ∧
    ((pack_store_part 1 [FP.num 5, FP.num 6] [FP.num 9, FP.num 8]).length = 2 ∧
     (∀ i, i < 1 →
       (pack_store_part 1 [FP.num 5, FP.num 6] [FP.num 9, FP.num 8])[i]? =
         ([FP.num 5, FP.num 6] : List FP)[i]?) ∧
     (∀ i, 1 ≤ i →
       (pack_store_part 1 [FP.num 5, FP.num 6] [FP.num 9, FP.num 8])[i]? =
         ([FP.num 9, FP.num 8] : List FP)[i]?)) :=
  ⟨⟨by decide, by decide, by simp, by simp⟩,
    pack_store_part_correct 2 1 [FP.num 5, FP.num 6] [FP.num 9, FP.num 8]
      (by decide) (by decide) (by simp) (by simp)⟩

/-!
### C9: full-width load/store round-trip
-/

/-- C9.  Loading a full-width pack from a buffer of exactly `width`
elements and storing it back reproduces the buffer exactly, for the
aligned pair (`store_a` after `load_a`) and the unaligned pair
(`store_u` after `load_u`). -/
theorem pack_roundtrip (w : ℕ) (buf : List FP) (h : buf.length = w) :
    pack_store_a (pack_load_a w buf) buf = buf ∧
    pack_store_u (pack_load_u w buf) buf = buf := by
  have htake : List.take w buf = buf := by
    rw [← h]
    exact List.take_length buf
  constructor <;>
    simp [pack_store_a, pack_store_u, pack_load_a, pack_load_u, htake]

/-- Witness for C9 at a concrete input: a width-2 buffer. -/
theorem pack_roundtrip_witness :
    (([FP.num 3, FP.num 7] : List FP).length = 2) ∧
    (pack_store_a (pack_load_a 2 [FP.num 3, FP.num 7]) [FP.num 3, FP.num 7] =
       [FP.num 3, FP.num 7] ∧
     pack_store_u (pack_load_u 2 [FP.num 3, FP.num 7]) [FP.num 3, FP.num 7] =
       [FP.num 3, FP.num 7]) :=
  ⟨by simp, pack_roundtrip 2 [FP.num 3, FP.num 7] (by simp)⟩

/-!
### C10: in-place element-wise arithmetic
-/

/-- The in-place update loop: one left-to-right pass that overwrites
slot `i` with `g i` of its current value rewrites the first `n` slots
and leaves the rest. -/
lemma foldl_set_loop (g : ℕ → FP → FP) :
    ∀ (n : ℕ) (acc : List FP), n ≤ acc.length →
      (List.range n).foldl
        (fun a i => a.set i (g i (a.getD i (FP.num 0)))) acc =
      (acc.take n).mapIdx (fun i x => g i x) ++ acc.drop n := by
  intro n
  induction n with
  | zero => intro acc _; simp
  | succ n ih =>
      intro acc hle
      have hn : n < acc.length := lt_of_lt_of_le (Nat.lt_succ_self n) hle
      have hRlen : ((acc.take n).mapIdx (fun i x => g i x)).length = n := by
        simp only [List.length_mapIdx, List.length_take]
        omega
      rw [List.range_succ, List.foldl_append, ih acc (le_of_lt hn)]
      simp only [List.foldl_cons, List.foldl_nil]
      have hgetD :
          ((acc.take n).mapIdx (fun i x => g i x) ++ acc.drop n).getD n
            (FP.num 0) = acc[n] := by
        rw [List.getD_eq_getElem?_getD,
          List.getElem?_append_right (by rw [hRlen]), hRlen, Nat.sub_self,
          List.getElem?_drop, Nat.add_zero, List.getElem?_eq_getElem hn]
        rfl
      rw [hgetD, List.set_append, if_neg (by rw [hRlen]; omega), hRlen,
        Nat.sub_self, List.drop_eq_getElem_cons hn, List.set_cons_zero,
        List.take_succ, List.getElem?_eq_getElem hn]
      simp only [Option.toList_some, List.mapIdx_append, List.length_take]
      have hmin : min n acc.length = n := by omega
      simp [hmin, List.mapIdx_cons]

/-- Slotwise addition written with explicit indices is `zipWith` of the
two equal-length operand lists. -/
lemma mapIdx_add_eq_zipWith :
    ∀ (A B : List FP), A.length = B.length →
      A.mapIdx (fun i x => FP.add x (B.getD i (FP.num 0))) =
        List.zipWith FP.add A B := by
  intro A
  induction A with
  | nil => intro B _; simp
  | cons a as ih =>
      intro B h
      cases B with
      | nil => simp at h
      | cons b bs =>
          rw [List.mapIdx_cons, List.zipWith_cons_cons]
          simp only [List.getD_cons_zero, List.getD_cons_succ]
          rw [ih bs (by simpa using h)]

/-- A `mapIdx` whose function ignores the index is a `map`. -/
lemma mapIdx_const_eq_map (f : FP → FP) :
    ∀ (A : List FP), A.mapIdx (fun _ x => f x) = A.map f := by
  intro A
  induction A with
  | nil => simp
  | cons a as ih => rw [List.mapIdx_cons, List.map_cons, ih]

/-- C10.  For every matrix shape in the tested set (8×6 and the
boundary shapes 1×1, 8×1, 1×6) and matrices `A`, `B` of that shape
(linearly indexed, `m * n` slots), the in-place update `A += B` leaves
`A` equal to the freshly evaluated element-wise sum `A + B`, and
likewise `A += c` for a scalar `c` equals `A + c`. -/
theorem in_place_add_equiv (m n : ℕ) (A B : List FP) (c : FP)
    (hshape : (m, n) ∈ [(8, 6), (1, 1), (8, 1), (1, 6)])
    (hA : A.length = m * n) (hB : B.length = m * n) :
    mat_add_ip A B = mat_add A B ∧
    mat_add_scalar_ip A c = mat_add_scalar A c := by
  have hAB : A.length = B.length := by rw [hA, hB]
  constructor
  · rw [mat_add_ip,
      foldl_set_loop (fun i x => FP.add x (B.getD i (FP.num 0)))
        A.length A le_rfl,
      List.take_length, List.drop_length, List.append_nil,
      mapIdx_add_eq_zipWith A B hAB]
    rfl
  · rw [mat_add_scalar_ip,
      foldl_set_loop (fun _ x => FP.add x c) A.length A le_rfl,
      List.take_length, List.drop_length, List.append_nil,
      mapIdx_const_eq_map (fun x => FP.add x c)]
    rfl

/-- Witness for C10 at a concrete input: the 1×1 boundary shape. -/
theorem in_place_add_equiv_witness :
    (((1, 1) : ℕ × ℕ) ∈ [(8, 6), (1, 1), (8, 1), (1, 6)] ∧
      ([FP.num 2] : List FP).length = 1 * 1 ∧
      ([FP.num 3] : List FP).length = 1 * 1) ∧
    (mat_add_ip [FP.num 2] [FP.num 3] = mat_add [FP.num 2] [FP.num 3] ∧
     mat_add_scalar_ip [FP.num 2] (FP.num 7) =
       mat_add_scalar [FP.num 2] (FP.num 7)) :=
  ⟨⟨by decide, by simp, by simp⟩,
    in_place_add_equiv 1 1 [FP.num 2] [FP.num 3] (FP.num 7)
      (by decide) (by simp) (by simp)⟩

end LightMat
